import Mathlib

/-!
A shallow embedding of the storage/file core of `src/app.py` (a small Flask
content-management backend), together with theorems settling the frozen
claims about its specification.

Modelling conventions:
* Python strings are Lean `String`s; character-level operations go through
  `String.data`.  Python `str.lower` is modelled by ASCII lowercasing
  (`Char.toLower`), which agrees with Python on every character the code's
  hexadecimal alphabet can produce.
* Python dictionaries holding records are modelled by a structure with
  `Option`-valued fields (`none` models an absent key, so `r.get(k)`
  returning `None` is `none`).
* The JSONL store file is modelled by its list of lines; the filesystem
  state that matters to the claims (existing file names in a folder, the
  per-entity upload folders) is modelled by lists of names.
* `load_all`/`write_all` thread the record list through each repository
  operation, so a repository operation is a function from the current list
  of rows (plus its arguments) to the updated list of rows.
-/

set_option maxRecDepth 4000

namespace NR

/-- Python `str.lower`, ASCII fragment (`Char.toLower` lowercases `A`–`Z`). -/
def pyLower (s : String) : String := ⟨s.data.map Char.toLower⟩

/-- The lowercase hexadecimal alphabet, the literal `"0123456789abcdef"`
tested against in `sanitize_hex_id` (`app.py` line 83). -/
def hexDigits : List Char := "0123456789abcdef".data

/-- `app.py` lines 79–85, `sanitize_hex_id`:
empty input is rejected; otherwise the input is lowercased and accepted
exactly when every character is a lowercase hex digit and the length lies
in `[8, 32]`; rejected inputs yield `""`. -/
def sanitize_hex_id (value : String) : String :=
  if value = "" then ""
  else
    let v := pyLower value
    if (∀ c ∈ v.data, c ∈ hexDigits) ∧ 8 ≤ v.length ∧ v.length ≤ 32 then v
    else ""

/-- Modelled from the Python standard library: `secrets.token_hex(nbytes)`
(`app.py` line 60) renders each drawn random byte as two lowercase hex
digits.  The randomness is made explicit: the function takes the drawn
byte sequence as an argument. -/
def token_hex (bytes : List Nat) : String :=
  ⟨bytes.foldr (fun b acc => Nat.digitChar (b / 16 % 16) :: Nat.digitChar (b % 16) :: acc) []⟩

/-- `app.py` lines 59–60, `new_id`: `secrets.token_hex(nbytes)`, with the
drawn bytes explicit (a call draws `nbytes` bytes, each `< 256`). -/
def new_id (_nbytes : Nat) (randomBytes : List Nat) : String :=
  token_hex randomBytes

/-! ### Basic facts about the sanitizer -/

theorem pyLower_data (s : String) : (pyLower s).data = s.data.map Char.toLower := rfl

theorem pyLower_length (s : String) : (pyLower s).length = s.length := by
  show (s.data.map Char.toLower).length = s.data.length
  exact List.length_map _ _

theorem toLower_of_mem_hexDigits {c : Char} (h : c ∈ hexDigits) : c.toLower = c := by
  fin_cases h <;> decide

theorem pyLower_of_all_hex {s : String} (h : ∀ c ∈ s.data, c ∈ hexDigits) :
    pyLower s = s := by
  apply String.ext
  rw [pyLower_data]
  calc s.data.map Char.toLower = s.data.map id :=
        List.map_congr_left fun c hc => toLower_of_mem_hexDigits (h c hc)
    _ = s.data := List.map_id _

theorem sanitize_accepted_iff (value : String) :
    sanitize_hex_id value ≠ "" ↔
      (8 ≤ value.length ∧ value.length ≤ 32 ∧ ∀ c ∈ value.data, c.toLower ∈ hexDigits) := by
  unfold sanitize_hex_id
  by_cases hv : value = ""
  · subst hv
    simp [String.length]
  · rw [if_neg hv]
    by_cases hcond : (∀ c ∈ (pyLower value).data, c ∈ hexDigits) ∧
        8 ≤ (pyLower value).length ∧ (pyLower value).length ≤ 32
    · rw [if_pos hcond]
      obtain ⟨hall, h8, h32⟩ := hcond
      constructor
      · intro _
        refine ⟨by rwa [pyLower_length] at h8, by rwa [pyLower_length] at h32, ?_⟩
        intro c hc
        exact hall _ (by rw [pyLower_data]; exact List.mem_map_of_mem _ hc)
      · intro _ hempty
        rw [pyLower_length] at h8
        have hd : value.data.map Char.toLower = [] := by
          have h' := congrArg String.data hempty
          rwa [pyLower_data] at h'
        have hnil : value.data = [] := List.map_eq_nil_iff.mp hd
        have : value.length = 0 := by
          show value.data.length = 0
          rw [hnil]
          rfl
        omega
    · rw [if_neg hcond]
      simp only [ne_eq, not_true_eq_false, false_iff]
      intro ⟨h8, h32, hall⟩
      exact hcond ⟨by
          rw [pyLower_data]
          intro c hc
          obtain ⟨a, ha, rfl⟩ := List.mem_map.mp hc
          exact hall a ha,
        by rwa [pyLower_length], by rwa [pyLower_length]⟩

theorem sanitize_eq_pyLower_of_accepted {value : String}
    (h : sanitize_hex_id value ≠ "") : sanitize_hex_id value = pyLower value := by
  unfold sanitize_hex_id at h ⊢
  by_cases hv : value = ""
  · simp [hv] at h
  · rw [if_neg hv] at h ⊢
    by_cases hcond : (∀ c ∈ (pyLower value).data, c ∈ hexDigits) ∧
        8 ≤ (pyLower value).length ∧ (pyLower value).length ≤ 32
    · rw [if_pos hcond]
    · rw [if_neg hcond] at h
      exact absurd rfl h

/-- C1 (claim as frozen, uppercase clause): the claim states that an input
containing an uppercase letter is rejected, but `sanitize_hex_id`
case-folds before validating, so `"ABCDEF12"` (uppercase hex letters,
length 8) is accepted and returned as `"abcdef12"`. -/
theorem C1_counterexample :
    ("ABCDEF12".data.any fun c => c.isUpper) = true ∧
    sanitize_hex_id "ABCDEF12" = "abcdef12" ∧
    sanitize_hex_id "ABCDEF12" ≠ "" := by
  refine ⟨by decide, by decide, by decide⟩

/-- C1 (amended): `sanitize_hex_id` rejects (returns `""` for) exactly the
inputs whose length is outside `[8, 32]` (so length 7 and length 33 are
rejected) or that contain a character that is not a hex digit after
case-folding; it accepts every other input — in particular uppercase hex
letters are accepted via case-folding — and the accepted value is the
case-folded input. -/
theorem C1_amended (value : String) :
    (sanitize_hex_id value ≠ "" ↔
      (8 ≤ value.length ∧ value.length ≤ 32 ∧ ∀ c ∈ value.data, c.toLower ∈ hexDigits)) ∧
    (sanitize_hex_id value = "" ∨ sanitize_hex_id value = pyLower value) := by
  refine ⟨sanitize_accepted_iff value, ?_⟩
  by_cases h : sanitize_hex_id value = ""
  · exact Or.inl h
  · exact Or.inr (sanitize_eq_pyLower_of_accepted h)

/-- Witness for `C1_amended` at concrete inputs: `"deadbeef"` is accepted
and length-7 `"abcdef1"` is rejected. -/
theorem C1_amended_witness :
    sanitize_hex_id "deadbeef" ≠ "" ∧ ¬ sanitize_hex_id "abcdef1" ≠ "" :=
  ⟨(C1_amended "deadbeef").1.mpr (by decide),
   fun h => by have := ((C1_amended "abcdef1").1.mp h).1; simp [String.length] at this⟩

/-- C9: `sanitize_hex_id` is idempotent: applying it twice equals applying
it once, for every input string. -/
theorem C9_sanitize_idempotent (x : String) :
    sanitize_hex_id (sanitize_hex_id x) = sanitize_hex_id x := by
  by_cases h : sanitize_hex_id x = ""
  · rw [h]
    rfl
  · have hres := sanitize_eq_pyLower_of_accepted h
    obtain ⟨h8, h32, hall⟩ := (sanitize_accepted_iff x).mp h
    have hallres : ∀ c ∈ (sanitize_hex_id x).data, c ∈ hexDigits := by
      rw [hres, pyLower_data]
      intro c hc
      obtain ⟨a, ha, rfl⟩ := List.mem_map.mp hc
      exact hall a ha
    have hlen : (sanitize_hex_id x).length = x.length := by
      rw [hres, pyLower_length]
    have haccept : sanitize_hex_id (sanitize_hex_id x) ≠ "" := by
      rw [sanitize_accepted_iff]
      refine ⟨by omega, by omega, ?_⟩
      intro c hc
      rw [toLower_of_mem_hexDigits (hallres c hc)]
      exact hallres c hc
    rw [sanitize_eq_pyLower_of_accepted haccept, pyLower_of_all_hex hallres]

/-! ### C10: generated ids pass sanitization -/

theorem token_hex_data (bytes : List Nat) :
    (token_hex bytes).data =
      bytes.foldr (fun b acc => Nat.digitChar (b / 16 % 16) :: Nat.digitChar (b % 16) :: acc) [] :=
  rfl

theorem token_hex_length (bytes : List Nat) :
    (token_hex bytes).length = 2 * bytes.length := by
  show (token_hex bytes).data.length = 2 * bytes.length
  rw [token_hex_data]
  induction bytes with
  | nil => rfl
  | cons b bs ih => simp [ih]; omega

theorem digitChar_mem_hexDigits {n : Nat} (h : n < 16) : Nat.digitChar n ∈ hexDigits := by
  have : ∀ m < 16, Nat.digitChar m ∈ hexDigits := by decide
  exact this n h

theorem token_hex_all_hex (bytes : List Nat) :
    ∀ c ∈ (token_hex bytes).data, c ∈ hexDigits := by
  rw [token_hex_data]
  induction bytes with
  | nil => intro c hc; cases hc
  | cons b bs ih =>
    intro c hc
    rcases hc with _ | ⟨_, hc⟩
    · exact digitChar_mem_hexDigits (Nat.mod_lt _ (by omega))
    · rcases hc with _ | ⟨_, hc⟩
      · exact digitChar_mem_hexDigits (Nat.mod_lt _ (by omega))
      · exact ih c hc

/-- C10: every id produced by `new_id 5` (i.e. `secrets.token_hex(5)` on
the 5 drawn bytes) is a 10-character lowercase-hex string, and
`sanitize_hex_id` returns it unchanged, so every created card is reachable
through the sanitized-id lookup path. -/
theorem C10_new_id_sanitizes (bytes : List Nat) (hlen : bytes.length = 5) :
    (new_id 5 bytes).length = 10 ∧
    sanitize_hex_id (new_id 5 bytes) = new_id 5 bytes := by
  have hl : (new_id 5 bytes).length = 10 := by
    rw [new_id, token_hex_length, hlen]
  refine ⟨hl, ?_⟩
  have hall : ∀ c ∈ (new_id 5 bytes).data, c ∈ hexDigits := token_hex_all_hex bytes
  have haccept : sanitize_hex_id (new_id 5 bytes) ≠ "" := by
    rw [sanitize_accepted_iff]
    refine ⟨by omega, by omega, ?_⟩
    intro c hc
    rw [toLower_of_mem_hexDigits (hall c hc)]
    exact hall c hc
  rw [sanitize_eq_pyLower_of_accepted haccept, pyLower_of_all_hex hall]

/-- Witness for `C10_new_id_sanitizes` on a concrete byte draw. -/
theorem C10_witness :
    (new_id 5 [0, 255, 171, 18, 52]).length = 10 ∧
    sanitize_hex_id (new_id 5 [0, 255, 171, 18, 52]) = new_id 5 [0, 255, 171, 18, 52] :=
  C10_new_id_sanitizes [0, 255, 171, 18, 52] (by decide)

/-! ### The record model

A store row is a Python dict; the fields the storage core reads are
modelled as `Option`-valued (`none` = key absent / JSON `null`).  All
fields default to `none` purely as notation for literals. -/

/-- A file attachment entry `{name, ext, url}`.  `name = ""` also stands
for an absent or `None` name, which Python's `not name` test treats the
same way as the empty string at every modelled use site. -/
structure FileRec where
  name : String := ""
  ext : String := ""
  url : String := ""
deriving DecidableEq

/-- A store record (a JSON object, one per store-file line). -/
structure Record where
  kind : Option String := none
  slug : Option String := none
  id : Option String := none
  «section» : Option String := none
  created_at : Option String := none
  updated_at : Option String := none
  title : Option String := none
  description : Option String := none
  link_url : Option String := none
  files : Option (List FileRec) := none
deriving DecidableEq

/-- Python `x or default` for an optional string (`None` and `""` are
falsy, any other string is truthy). -/
def pyOr (v : Option String) (d : String) : String :=
  match v with
  | none => d
  | some s => if s = "" then d else s

/-- Python whitespace stripped by `str.strip()` (ASCII fragment). -/
def pySpace : List Char := [' ', '\t', '\n', '\r', '\x0b', '\x0c']

/-- Python `str.strip()` (ASCII fragment). -/
def pyStrip (s : String) : String :=
  ⟨((s.data.dropWhile (· ∈ pySpace)).reverse.dropWhile (· ∈ pySpace)).reverse⟩

/-- `name.rsplit(".", 1)[-1].lower() if "." in name else ""`
(`app.py` line 479): the lowercased suffix after the last dot. -/
def lastExtLower (name : String) : String :=
  if name.data.contains '.' then
    pyLower ⟨(name.data.reverse.takeWhile (fun c => c ≠ '.')).reverse⟩
  else ""

/-- `url_for("uploaded_file", item_id=…, filename=…)` against the route
`/uploads/<item_id>/<path:filename>` (`app.py` line 153).  Flask's
percent-encoding is omitted (it is the identity on the characters
`secure_filename` can emit); `none` renders as Python `str(None)`, a
corner no modelled call site reaches. -/
def url_for_uploaded_file (item_id : Option String) (filename : String) : String :=
  "/uploads/" ++ (match item_id with | some s => s | none => "None") ++ "/" ++ filename

/-- `app.py` lines 471–482, `refresh_file_urls`: entries with an
absent/empty `name` are dropped; for the rest, `ext` is recomputed from
`name` and `url` is recomputed from the owning id and `name`. -/
def refresh_file_urls (item_id : Option String) (files : List FileRec) : List FileRec :=
  files.filterMap fun f =>
    if f.name = "" then none
    else some { name := f.name, ext := lastExtLower f.name,
                url := url_for_uploaded_file item_id f.name }

/-- The row test of the card operations: `r.get("kind") == "card" and
r.get("id") == card_id`. -/
def is_card_row (card_id : String) (r : Record) : Bool :=
  r.kind == some "card" && r.id == some card_id

/-- The row test of the page operations: `r.get("kind") == "page" and
r.get("slug") == slug`. -/
def is_page_row (slug : String) (r : Record) : Bool :=
  r.kind == some "page" && r.slug == some slug

/-- `app.py` lines 563–569, `get_card`: first row with `kind="card"` and
matching id; its `files` are refreshed and its `section` defaulted to
`"analytics"` when absent or empty (Python `or`). -/
def get_card (rows : List Record) (card_id : String) : Option Record :=
  match rows with
  | [] => none
  | r :: rs =>
    if is_card_row card_id r then
      some { r with files := some (refresh_file_urls r.id (r.files.getD [])),
                    «section» := some (pyOr r.«section» "analytics") }
    else get_card rs card_id

/-- The scan loop of `get_page` (slug already normalized). -/
def get_page_loop (rows : List Record) (s : String) : Option Record :=
  match rows with
  | [] => none
  | r :: rs =>
    if is_page_row s r then
      some { r with files := some (refresh_file_urls r.id (r.files.getD [])) }
    else get_page_loop rs s

/-- `app.py` lines 511–517, `get_page`: normalizes the slug
(`(slug or "").strip().lower()`), then returns the first row with
`kind="page"` and that slug, with `files` refreshed. -/
def get_page (rows : List Record) (slug : String) : Option Record :=
  get_page_loop rows (pyLower (pyStrip slug))

/-- `app.py` lines 571–580, `upsert_card`: replace the first row with
`kind="card"` and matching id, or append when none matches; the whole
row list is then rewritten by `write_all`. -/
def upsert_card (card_id : String) (card : Record) : List Record → List Record
  | [] => [card]
  | r :: rs =>
    if is_card_row card_id r then card :: rs
    else r :: upsert_card card_id card rs

/-- `app.py` lines 519–528, `upsert_page`: replace the first row with
`kind="page"` and matching slug (the argument is *not* normalized here),
or append when none matches. -/
def upsert_page (slug : String) (page : Record) : List Record → List Record
  | [] => [page]
  | r :: rs =>
    if is_page_row slug r then page :: rs
    else r :: upsert_page slug page rs

/-- `app.py` lines 606–620, `delete_card`: filter out every row with
`kind="card"` and the given id; if nothing was removed return `False`
without writing; otherwise rewrite the store and (when `delete_files`
is set, as at the only call site) remove the card's upload folder
`uploads/<card_id>` — `shutil.rmtree` guarded by `os.path.isdir`, so a
missing folder is tolerated.  `uploadDirs` models the set of per-entity
upload folders on disk, by entity id. -/
def delete_card (card_id : String) (delete_files : Bool) (rows : List Record)
    (uploadDirs : List String) : Bool × List Record × List String :=
  let new_rows := rows.filter fun r => !(is_card_row card_id r)
  if new_rows.length = rows.length then (false, rows, uploadDirs)
  else
    (true, new_rows,
     if delete_files then uploadDirs.filter (fun d => d ≠ card_id) else uploadDirs)

/-- `app.py` lines 582–604, `delete_file_from_card`.  `sf` is werkzeug's
`secure_filename` (an external library function, taken as a parameter);
`now` the `utc_now()` timestamp; `disk` the file names currently present
in `uploads/<card_id>/`; `removeOk` models whether the best-effort
`os.remove` (wrapped in `try/except: pass`) succeeds.  Returns the
Python return value, the updated row list, and the updated disk state. -/
def delete_file_from_card (sf : String → String) (now : String)
    (card_id filename : String) (rows : List Record)
    (disk : List String) (removeOk : Bool) :
    Bool × List Record × List String :=
  let safe_name := sf filename
  if safe_name = "" then (false, rows, disk)
  else
    match get_card rows card_id with
    | none => (false, rows, disk)
    | some card =>
      let files := card.files.getD []
      let new_files := files.filter fun f => f.name ≠ safe_name
      if new_files.length = files.length then (false, rows, disk)
      else
        (true,
         upsert_card card_id
           { card with files := some new_files, updated_at := some now } rows,
         if disk.contains safe_name && removeOk
         then disk.filter (fun n => n ≠ safe_name) else disk)

/-! ### C2: upsert/get round-trip -/

theorem get_card_after_upsert (rows : List Record) (card : Record) (card_id : String)
    (hk : card.kind = some "card") (hid : card.id = some card_id) :
    get_card (upsert_card card_id card rows) card_id =
      some { card with files := some (refresh_file_urls card.id (card.files.getD [])),
                       «section» := some (pyOr card.«section» "analytics") } := by
  have hmatch : is_card_row card_id card = true := by
    simp [is_card_row, hk, hid]
  induction rows with
  | nil => simp [upsert_card, get_card, hmatch]
  | cons r rs ih =>
    by_cases h : is_card_row card_id r = true
    · simp [upsert_card, h, get_card, hmatch]
    · simp only [upsert_card, h]
      rw [if_neg (by simp [h])]
      simpa [get_card, h] using ih

theorem get_page_loop_after_upsert (rows : List Record) (page : Record) (slug : String)
    (hk : page.kind = some "page") (hs : page.slug = some slug) :
    get_page_loop (upsert_page slug page rows) slug =
      some { page with files := some (refresh_file_urls page.id (page.files.getD [])) } := by
  have hmatch : is_page_row slug page = true := by
    simp [is_page_row, hk, hs]
  induction rows with
  | nil => simp [upsert_page, get_page_loop, hmatch]
  | cons r rs ih =>
    by_cases h : is_page_row slug r = true
    · simp [upsert_page, h, get_page_loop, hmatch]
    · simp only [upsert_page, h]
      rw [if_neg (by simp [h])]
      simpa [get_page_loop, h] using ih

theorem mem_refresh_file_urls {pid : String} {fs : List FileRec} {f : FileRec}
    (h : f ∈ refresh_file_urls (some pid) fs) :
    f.url = "/uploads/" ++ pid ++ "/" ++ f.name ∧ ∃ g ∈ fs, f.name = g.name := by
  obtain ⟨g, hg, hfg⟩ := List.mem_filterMap.mp h
  by_cases hname : g.name = ""
  · simp [refresh_file_urls, hname] at hfg
  · rw [if_neg hname] at hfg
    cases Option.some.inj hfg
    exact ⟨rfl, g, hg, rfl⟩

/-- C2 counterexample: the claim says the read-back record has the same
field values as the written one *except each `files[*].url`* — but
`get_card` also defaults the `section` field: upserting a card whose
`section` key is absent reads back `section = "analytics"`. -/
theorem C2_counterexample :
    (get_card (upsert_card "aaaaaaaa"
        { kind := some "card", id := some "aaaaaaaa" } []) "aaaaaaaa").map
      Record.«section» = some (some "analytics") ∧
    ({ kind := some "card", id := some "aaaaaaaa" : Record }).«section» = none := by
  exact ⟨rfl, rfl⟩

/-- C2 (amended): writing a record via `upsert_card` (resp. `upsert_page`)
whose `kind`/key fields match the operation and reading it back via
`get_card` (resp. `get_page`) yields the written record except that
(a) `files` is replaced by its refreshed form — entries with an empty
`name` dropped, each kept entry keeping its persisted `name`, with `ext`
recomputed from the name and `url` recomputed to `/uploads/<id>/<name>` —
and (b) for cards, `section` is replaced by `"analytics"` when it was
absent or empty. -/
theorem C2_roundtrip (rows : List Record) (card page : Record)
    (card_id slug pid : String)
    (hck : card.kind = some "card") (hcid : card.id = some card_id)
    (hpk : page.kind = some "page") (hps : page.slug = some slug)
    (hpid : page.id = some pid) (hnorm : pyLower (pyStrip slug) = slug) :
    (get_card (upsert_card card_id card rows) card_id =
      some { card with
             files := some (refresh_file_urls (some card_id) (card.files.getD [])),
             «section» := some (pyOr card.«section» "analytics") } ∧
     ∀ f ∈ refresh_file_urls (some card_id) (card.files.getD []),
       f.url = "/uploads/" ++ card_id ++ "/" ++ f.name ∧
       ∃ g ∈ card.files.getD [], f.name = g.name) ∧
    (get_page (upsert_page slug page rows) slug =
      some { page with
             files := some (refresh_file_urls (some pid) (page.files.getD [])) } ∧
     ∀ f ∈ refresh_file_urls (some pid) (page.files.getD []),
       f.url = "/uploads/" ++ pid ++ "/" ++ f.name ∧
       ∃ g ∈ page.files.getD [], f.name = g.name) := by
  refine ⟨⟨?_, fun f hf => mem_refresh_file_urls hf⟩,
          ⟨?_, fun f hf => mem_refresh_file_urls hf⟩⟩
  · rw [← hcid]
    exact get_card_after_upsert rows card card_id hck hcid
  · rw [get_page, hnorm, ← hpid]
    exact get_page_loop_after_upsert rows page slug hpk hps

/-- The concrete card used by the `C2_roundtrip` witness: it carries a
stale `url` and a wrong stored `ext`. -/
def wCard : Record :=
  { kind := some "card", id := some "aaaaaaaa", «section» := some "course",
    files := some [{ name := "a.png", ext := "weird", url := "stale" }] }

/-- The concrete page used by the `C2_roundtrip` witness. -/
def wPage : Record :=
  { kind := some "page", slug := some "telegram", id := some "a1b2c3d4e5" }

/-- Witness for `C2_roundtrip` at a concrete store. -/
theorem C2_roundtrip_witness :
    (get_card (upsert_card "aaaaaaaa" wCard []) "aaaaaaaa" =
      some { wCard with
             files := some (refresh_file_urls (some "aaaaaaaa") (wCard.files.getD [])),
             «section» := some (pyOr wCard.«section» "analytics") } ∧
     ∀ f ∈ refresh_file_urls (some "aaaaaaaa") (wCard.files.getD []),
       f.url = "/uploads/" ++ "aaaaaaaa" ++ "/" ++ f.name ∧
       ∃ g ∈ wCard.files.getD [], f.name = g.name) ∧
    (get_page (upsert_page "telegram" wPage []) "telegram" =
      some { wPage with
             files := some (refresh_file_urls (some "a1b2c3d4e5") (wPage.files.getD [])) } ∧
     ∀ f ∈ refresh_file_urls (some "a1b2c3d4e5") (wPage.files.getD []),
       f.url = "/uploads/" ++ "a1b2c3d4e5" ++ "/" ++ f.name ∧
       ∃ g ∈ wPage.files.getD [], f.name = g.name) :=
  C2_roundtrip [] wCard wPage "aaaaaaaa" "telegram" "a1b2c3d4e5"
    rfl rfl rfl rfl rfl (by decide)

/-! ### C5: delete semantics -/

/-- C5: when some row has `kind="card"` and the given id, `delete_card`
returns `True`, rewrites the store with every such row removed, and
removes the card's upload folder; when no such row exists it returns
`False` leaving store and disk untouched; hence a second delete of the
same id on the resulting state returns `False` without modifying it. -/
theorem C5_delete_card (rows : List Record) (dirs : List String) (card_id : String) :
    ((∃ r ∈ rows, is_card_row card_id r = true) →
      delete_card card_id true rows dirs =
        (true, rows.filter (fun r => !(is_card_row card_id r)),
         dirs.filter (fun d => d ≠ card_id)) ∧
      (∀ r ∈ rows.filter (fun r => !(is_card_row card_id r)),
        ¬ is_card_row card_id r = true) ∧
      card_id ∉ dirs.filter (fun d => d ≠ card_id)) ∧
    ((∀ r ∈ rows, ¬ is_card_row card_id r = true) →
      delete_card card_id true rows dirs = (false, rows, dirs)) ∧
    (∀ rows' dirs',
      delete_card card_id true rows dirs = (true, rows', dirs') →
      delete_card card_id true rows' dirs' = (false, rows', dirs')) := by
  have hfilter_all : ∀ l : List Record,
      (∀ r ∈ l, ¬ is_card_row card_id r = true) →
      (l.filter (fun r => !(is_card_row card_id r))).length = l.length := by
    intro l hl
    exact List.filter_length_eq_length.mpr fun r hr => by
      simpa using hl r hr
  have hnoneGen : ∀ (l : List Record) (ds : List String),
      (∀ r ∈ l, ¬ is_card_row card_id r = true) →
      delete_card card_id true l ds = (false, l, ds) := by
    intro l ds hall
    unfold delete_card
    rw [if_pos (hfilter_all l hall)]
  refine ⟨?_, hnoneGen rows dirs, ?_⟩
  · intro ⟨r, hr, hmatch⟩
    have hlen : (rows.filter (fun r => !(is_card_row card_id r))).length ≠ rows.length := by
      intro hlen
      have := List.filter_length_eq_length.mp hlen r hr
      simp [hmatch] at this
    refine ⟨?_, ?_, ?_⟩
    · unfold delete_card
      rw [if_neg hlen]
      simp
    · intro x hx
      have := (List.mem_filter.mp hx).2
      simpa using this
    · intro hmem
      exact absurd rfl (of_decide_eq_true (List.mem_filter.mp hmem).2)
  · intro rows' dirs' hdel
    by_cases hlen : (rows.filter (fun r => !(is_card_row card_id r))).length = rows.length
    · unfold delete_card at hdel
      rw [if_pos hlen] at hdel
      cases hdel
    · unfold delete_card at hdel
      rw [if_neg hlen] at hdel
      injection hdel with _ h2
      injection h2 with hA hB
      subst hA
      exact hnoneGen _ dirs' fun x hx => by
        simpa using (List.mem_filter.mp hx).2

/-- Witness for `C5_delete_card` on a one-card store whose upload folder
exists: the delete succeeds and a second delete of the same id reports
not-found on the resulting state. -/
theorem C5_delete_card_witness :
    delete_card "aaaaaaaa" true [{ kind := some "card", id := some "aaaaaaaa" }]
        ["aaaaaaaa"] =
      (true,
       ([{ kind := some "card", id := some "aaaaaaaa" }] : List Record).filter
         (fun r => !(is_card_row "aaaaaaaa" r)),
       (["aaaaaaaa"] : List String).filter (fun d => d ≠ "aaaaaaaa")) ∧
    delete_card "aaaaaaaa" true [] [] = (false, [], []) :=
  ⟨((C5_delete_card [{ kind := some "card", id := some "aaaaaaaa" }] ["aaaaaaaa"]
      "aaaaaaaa").1 ⟨_, List.mem_singleton.mpr rfl, by decide⟩).1,
   (C5_delete_card [] [] "aaaaaaaa").2.1 (by simp)⟩

/-! ### C7: the `section` field returned by `get_card` -/

/-- C7 counterexample: the claim says `get_card` returns a `section` in
the fixed set `{telegram, analytics, course}`, defaulting invalid values
to `"analytics"` — but `get_card` only defaults *absent or empty* (falsy)
sections: a stored card with the invalid tag `"bogus"` is returned with
`section = "bogus"`, outside the set. -/
theorem C7_counterexample :
    (get_card [{ kind := some "card", id := some "aaaaaaaa",
                 «section» := some "bogus" }] "aaaaaaaa").map Record.«section» =
      some (some "bogus") ∧
    ¬ ("bogus" = "telegram" ∨ "bogus" = "analytics" ∨ "bogus" = "course") := by
  exact ⟨rfl, by decide⟩

/-- C7 (amended): the record returned by `get_card` carries
`section = stored section or "analytics"` in Python's `or` sense:
`"analytics"` exactly when the stored card's section is absent or empty,
and the stored value unchanged otherwise — even when that value is
outside the fixed set (the listing routes, not `get_card`, coerce
invalid tags to `"analytics"`). -/
theorem C7_get_card_section (rows : List Record) (card_id : String) (card : Record)
    (h : get_card rows card_id = some card) :
    ∃ r ∈ rows, is_card_row card_id r = true ∧
      card.«section» = some (pyOr r.«section» "analytics") ∧
      ((r.«section» = none ∨ r.«section» = some "") →
        card.«section» = some "analytics") ∧
      (∀ s, r.«section» = some s → s ≠ "" → card.«section» = some s) := by
  induction rows with
  | nil => cases h
  | cons r rs ih =>
    by_cases hm : is_card_row card_id r = true
    · rw [get_card, if_pos hm] at h
      cases Option.some.inj h
      refine ⟨r, List.mem_cons_self r rs, hm, rfl, ?_, ?_⟩
      · rintro (hs | hs) <;> simp [pyOr, hs]
      · intro s hs hs'
        simp [pyOr, hs, hs']
    · rw [get_card, if_neg hm] at h
      obtain ⟨x, hx, hrest⟩ := ih h
      exact ⟨x, List.mem_cons_of_mem r hx, hrest⟩

/-- Witness for `C7_get_card_section` on a store whose card has no
`section` key: the returned section is `"analytics"`. -/
theorem C7_witness :
    ∃ r ∈ [{ kind := some "card", id := some "aaaaaaaa" : Record }],
      is_card_row "aaaaaaaa" r = true ∧
      ((get_card [{ kind := some "card", id := some "aaaaaaaa" : Record }]
          "aaaaaaaa").getD {}).«section» = some (pyOr r.«section» "analytics") ∧
      ((r.«section» = none ∨ r.«section» = some "") →
        ((get_card [{ kind := some "card", id := some "aaaaaaaa" : Record }]
          "aaaaaaaa").getD {}).«section» = some "analytics") ∧
      (∀ s, r.«section» = some s → s ≠ "" →
        ((get_card [{ kind := some "card", id := some "aaaaaaaa" : Record }]
          "aaaaaaaa").getD {}).«section» = some s) :=
  C7_get_card_section [{ kind := some "card", id := some "aaaaaaaa" }] "aaaaaaaa"
    ((get_card [{ kind := some "card", id := some "aaaaaaaa" }] "aaaaaaaa").getD {})
    (by decide)

/-! ### C6: removing one file from a card -/

/-- C6: `delete_file_from_card` returns `False` and leaves the store
unchanged when the filename sanitizes to empty, when the card does not
exist, or when no entry of the card's files list bears the sanitized
name; otherwise it removes every entry with that name, stamps
`updated_at` with the current time, re-persists the card via
`upsert_card`, and returns `True` — and the returned flag and row list
never depend on whether the physical `os.remove` succeeds (`removeOk`). -/
theorem C6_delete_file_from_card (sf : String → String) (now : String)
    (card_id filename : String) (rows : List Record)
    (disk : List String) (removeOk : Bool) :
    (sf filename = "" →
      delete_file_from_card sf now card_id filename rows disk removeOk =
        (false, rows, disk)) ∧
    (get_card rows card_id = none →
      delete_file_from_card sf now card_id filename rows disk removeOk =
        (false, rows, disk)) ∧
    (∀ card, get_card rows card_id = some card →
      (∀ f ∈ card.files.getD [], ¬ f.name = sf filename) →
      delete_file_from_card sf now card_id filename rows disk removeOk =
        (false, rows, disk)) ∧
    (∀ card, get_card rows card_id = some card → ¬ sf filename = "" →
      (∃ f ∈ card.files.getD [], f.name = sf filename) →
      (delete_file_from_card sf now card_id filename rows disk removeOk).1 = true ∧
      (delete_file_from_card sf now card_id filename rows disk removeOk).2.1 =
        upsert_card card_id
          { card with
            files := some ((card.files.getD []).filter
              (fun f => ¬ f.name = sf filename)),
            updated_at := some now } rows) ∧
    ((delete_file_from_card sf now card_id filename rows disk removeOk).1 =
      (delete_file_from_card sf now card_id filename rows disk true).1 ∧
     (delete_file_from_card sf now card_id filename rows disk removeOk).2.1 =
      (delete_file_from_card sf now card_id filename rows disk true).2.1) := by
  have h1 : ∀ ok : Bool, sf filename = "" →
      delete_file_from_card sf now card_id filename rows disk ok = (false, rows, disk) := by
    intro ok hs
    simp [delete_file_from_card, hs]
  have h2 : ∀ ok : Bool, ¬ sf filename = "" → get_card rows card_id = none →
      delete_file_from_card sf now card_id filename rows disk ok = (false, rows, disk) := by
    intro ok hs hget
    simp [delete_file_from_card, hs, hget]
  have h3 : ∀ (ok : Bool) (card : Record), get_card rows card_id = some card →
      (∀ f ∈ card.files.getD [], ¬ f.name = sf filename) →
      delete_file_from_card sf now card_id filename rows disk ok = (false, rows, disk) := by
    intro ok card hget hall
    by_cases hs : sf filename = ""
    · exact h1 ok hs
    · simp only [delete_file_from_card, hs, hget]
      simp
      exact hall
  have h4 : ∀ (ok : Bool) (card : Record), get_card rows card_id = some card →
      ¬ sf filename = "" →
      (∃ f ∈ card.files.getD [], f.name = sf filename) →
      (delete_file_from_card sf now card_id filename rows disk ok).1 = true ∧
      (delete_file_from_card sf now card_id filename rows disk ok).2.1 =
        upsert_card card_id
          { card with
            files := some ((card.files.getD []).filter
              (fun f => ¬ f.name = sf filename)),
            updated_at := some now } rows := by
    intro ok card hget hs hex
    obtain ⟨f, hf, hfname⟩ := hex
    have hC : ¬ ∀ a ∈ card.files.getD [], ¬ a.name = sf filename :=
      fun h => h f hf hfname
    constructor <;> simp [delete_file_from_card, hs, hget, hC]
  refine ⟨h1 removeOk, ?_, h3 removeOk, h4 removeOk, ?_⟩
  · intro hget
    by_cases hs : sf filename = ""
    · exact h1 removeOk hs
    · exact h2 removeOk hs hget
  · by_cases hs : sf filename = ""
    · rw [h1 removeOk hs, h1 true hs]
      exact ⟨rfl, rfl⟩
    · cases hget : get_card rows card_id with
      | none =>
        rw [h2 removeOk hs hget, h2 true hs hget]
        exact ⟨rfl, rfl⟩
      | some card =>
        by_cases hex : ∃ f ∈ card.files.getD [], f.name = sf filename
        · obtain ⟨hf1, hf2⟩ := h4 removeOk card hget hs hex
          obtain ⟨hg1, hg2⟩ := h4 true card hget hs hex
          exact ⟨hf1.trans hg1.symm, hf2.trans hg2.symm⟩
        · have hall : ∀ f ∈ card.files.getD [], ¬ f.name = sf filename := by
            intro f hf hname
            exact hex ⟨f, hf, hname⟩
          rw [h3 removeOk card hget hall, h3 true card hget hall]
          exact ⟨rfl, rfl⟩

/-- The concrete store used by the `C6` witness. -/
def wCard6 : Record :=
  { kind := some "card", id := some "aaaaaaaa", «section» := some "course",
    files := some [{ name := "a.png", ext := "png", url := "stale" }] }

/-- Witness for `C6_delete_file_from_card`: deleting `"a.png"` from the
one-card store succeeds and re-persists the card without that entry, and
deleting it again (clause for a name no longer present) reports `False`. -/
theorem C6_witness :
    ((delete_file_from_card (fun s => s) "2024-01-01T00:00:00Z" "aaaaaaaa" "a.png"
        [wCard6] ["a.png"] false).1 = true ∧
     (delete_file_from_card (fun s => s) "2024-01-01T00:00:00Z" "aaaaaaaa" "a.png"
        [wCard6] ["a.png"] false).2.1 =
       upsert_card "aaaaaaaa"
         { (get_card [wCard6] "aaaaaaaa").getD {} with
           files := some ((((get_card [wCard6] "aaaaaaaa").getD {}).files.getD []).filter
             (fun f => ¬ f.name = (fun s => s) "a.png")),
           updated_at := some "2024-01-01T00:00:00Z" } [wCard6]) ∧
    delete_file_from_card (fun s => s) "2024-01-01T00:00:00Z" "aaaaaaaa" "b.png"
        [wCard6] ["a.png"] false = (false, [wCard6], ["a.png"]) :=
  ⟨(C6_delete_file_from_card (fun s => s) "2024-01-01T00:00:00Z" "aaaaaaaa" "a.png"
      [wCard6] ["a.png"] false).2.2.2.1
      ((get_card [wCard6] "aaaaaaaa").getD {}) rfl (by decide)
      ⟨{ name := "a.png", ext := "png", url := "/uploads/aaaaaaaa/a.png" },
        by decide, by decide⟩,
   (C6_delete_file_from_card (fun s => s) "2024-01-01T00:00:00Z" "aaaaaaaa" "b.png"
      [wCard6] ["a.png"] false).2.2.1
      ((get_card [wCard6] "aaaaaaaa").getD {}) rfl (by decide)⟩

/-! ### C8: the store-uniqueness invariant -/

/-- The card identity key of a row: `some i` exactly when the row is a
card with id `i` (i.e. exactly when `is_card_row i` matches it). -/
def cardKey (r : Record) : Option String :=
  if r.kind = some "card" then r.id else none

/-- The page identity key of a row, analogously by slug. -/
def pageKey (r : Record) : Option String :=
  if r.kind = some "page" then r.slug else none

/-- Two rows collide on neither uniqueness key. -/
def keysOk (a b : Record) : Prop :=
  (cardKey a = none ∨ ¬ cardKey a = cardKey b) ∧
  (pageKey a = none ∨ ¬ pageKey a = pageKey b)

instance : DecidableRel keysOk := fun a b => by
  unfold keysOk
  infer_instance

/-- The store-uniqueness invariant in pairwise form (decidable; proved
equivalent to the per-key count form in `uniqueInv_iff_storeUnique`). -/
def uniqueInv (rows : List Record) : Prop := rows.Pairwise keysOk

instance : DecidablePred uniqueInv := fun rows => by
  unfold uniqueInv
  infer_instance

/-- The invariant as the spec states it: at most one card row per id and
at most one page row per slug. -/
def storeUnique (rows : List Record) : Prop :=
  (∀ i, (rows.filter (is_card_row i)).length ≤ 1) ∧
  (∀ s, (rows.filter (is_page_row s)).length ≤ 1)

theorem cardKey_eq_some_iff {r : Record} {i : String} :
    cardKey r = some i ↔ is_card_row i r = true := by
  unfold cardKey is_card_row
  by_cases hk : r.kind = some "card" <;> simp [hk]

theorem pageKey_eq_some_iff {r : Record} {s : String} :
    pageKey r = some s ↔ is_page_row s r = true := by
  unfold pageKey is_page_row
  by_cases hk : r.kind = some "page" <;> simp [hk]

theorem uniqueInv_iff_storeUnique (rows : List Record) :
    uniqueInv rows ↔ storeUnique rows := by
  constructor
  · intro hinv
    constructor
    · intro i
      have hp : (rows.filter (is_card_row i)).Pairwise keysOk :=
        List.Pairwise.filter _ hinv
      cases hl : rows.filter (is_card_row i) with
      | nil => simp
      | cons a t =>
        cases t with
        | nil => simp
        | cons b t' =>
          exfalso
          rw [hl] at hp
          have hab := (List.pairwise_cons.mp hp).1 b (List.mem_cons_self b t')
          have ha : is_card_row i a = true :=
            (List.mem_filter.mp (hl ▸ List.mem_cons_self a (b :: t'))).2
          have hb : is_card_row i b = true :=
            (List.mem_filter.mp
              (hl ▸ List.mem_cons_of_mem a (List.mem_cons_self b t'))).2
          have hka := cardKey_eq_some_iff.mpr ha
          have hkb := cardKey_eq_some_iff.mpr hb
          rcases hab.1 with h | h
          · rw [hka] at h
            cases h
          · exact h (hka.trans hkb.symm)
    · intro s
      have hp : (rows.filter (is_page_row s)).Pairwise keysOk :=
        List.Pairwise.filter _ hinv
      cases hl : rows.filter (is_page_row s) with
      | nil => simp
      | cons a t =>
        cases t with
        | nil => simp
        | cons b t' =>
          exfalso
          rw [hl] at hp
          have hab := (List.pairwise_cons.mp hp).1 b (List.mem_cons_self b t')
          have ha : is_page_row s a = true :=
            (List.mem_filter.mp (hl ▸ List.mem_cons_self a (b :: t'))).2
          have hb : is_page_row s b = true :=
            (List.mem_filter.mp
              (hl ▸ List.mem_cons_of_mem a (List.mem_cons_self b t'))).2
          have hka := pageKey_eq_some_iff.mpr ha
          have hkb := pageKey_eq_some_iff.mpr hb
          rcases hab.2 with h | h
          · rw [hka] at h
            cases h
          · exact h (hka.trans hkb.symm)
  · intro hcount
    induction rows with
    | nil => exact List.Pairwise.nil
    | cons r rs ih =>
      have htail : storeUnique rs := by
        constructor
        · intro i
          have h := hcount.1 i
          rw [List.filter_cons] at h
          by_cases hr : is_card_row i r = true
          · rw [if_pos hr, List.length_cons] at h
            omega
          · rwa [if_neg hr] at h
        · intro s
          have h := hcount.2 s
          rw [List.filter_cons] at h
          by_cases hr : is_page_row s r = true
          · rw [if_pos hr, List.length_cons] at h
            omega
          · rwa [if_neg hr] at h
      refine List.pairwise_cons.mpr ⟨?_, ih htail⟩
      intro x hx
      constructor
      · by_cases hc : cardKey r = none
        · exact Or.inl hc
        · refine Or.inr ?_
          obtain ⟨i, hi⟩ := Option.ne_none_iff_exists'.mp hc
          intro heq
          have hxk : cardKey x = some i := heq ▸ hi
          have hr : is_card_row i r = true := cardKey_eq_some_iff.mp hi
          have hx' : is_card_row i x = true := cardKey_eq_some_iff.mp hxk
          have hxmem : x ∈ rs.filter (is_card_row i) :=
            List.mem_filter.mpr ⟨hx, hx'⟩
          have hpos : 1 ≤ (rs.filter (is_card_row i)).length :=
            List.length_pos.mpr fun hnil => by simp [hnil] at hxmem
          have hcnt := hcount.1 i
          rw [List.filter_cons, if_pos hr, List.length_cons] at hcnt
          omega
      · by_cases hc : pageKey r = none
        · exact Or.inl hc
        · refine Or.inr ?_
          obtain ⟨s, hs⟩ := Option.ne_none_iff_exists'.mp hc
          intro heq
          have hxk : pageKey x = some s := heq ▸ hs
          have hr : is_page_row s r = true := pageKey_eq_some_iff.mp hs
          have hx' : is_page_row s x = true := pageKey_eq_some_iff.mp hxk
          have hxmem : x ∈ rs.filter (is_page_row s) :=
            List.mem_filter.mpr ⟨hx, hx'⟩
          have hpos : 1 ≤ (rs.filter (is_page_row s)).length :=
            List.length_pos.mpr fun hnil => by simp [hnil] at hxmem
          have hcnt := hcount.2 s
          rw [List.filter_cons, if_pos hr, List.length_cons] at hcnt
          omega

theorem mem_upsert_card {card_id : String} {card x : Record} :
    ∀ {rows : List Record}, x ∈ upsert_card card_id card rows → x = card ∨ x ∈ rows := by
  intro rows
  induction rows with
  | nil =>
    intro h
    exact Or.inl (List.mem_singleton.mp h)
  | cons r rs ih =>
    intro h
    by_cases hm : is_card_row card_id r = true
    · simp only [upsert_card, if_pos hm] at h
      rcases List.mem_cons.mp h with h | h
      · exact Or.inl h
      · exact Or.inr (List.mem_cons_of_mem r h)
    · simp only [upsert_card, if_neg hm] at h
      rcases List.mem_cons.mp h with h | h
      · exact Or.inr (h ▸ List.mem_cons_self r rs)
      · rcases ih h with h | h
        · exact Or.inl h
        · exact Or.inr (List.mem_cons_of_mem r h)

theorem mem_upsert_page {slug : String} {page x : Record} :
    ∀ {rows : List Record}, x ∈ upsert_page slug page rows → x = page ∨ x ∈ rows := by
  intro rows
  induction rows with
  | nil =>
    intro h
    exact Or.inl (List.mem_singleton.mp h)
  | cons r rs ih =>
    intro h
    by_cases hm : is_page_row slug r = true
    · simp only [upsert_page, if_pos hm] at h
      rcases List.mem_cons.mp h with h | h
      · exact Or.inl h
      · exact Or.inr (List.mem_cons_of_mem r h)
    · simp only [upsert_page, if_neg hm] at h
      rcases List.mem_cons.mp h with h | h
      · exact Or.inr (h ▸ List.mem_cons_self r rs)
      · rcases ih h with h | h
        · exact Or.inl h
        · exact Or.inr (List.mem_cons_of_mem r h)

theorem uniqueInv_upsert_card {card_id : String} {card : Record}
    (hk : card.kind = some "card") (hid : card.id = some card_id) :
    ∀ {rows : List Record}, uniqueInv rows → uniqueInv (upsert_card card_id card rows) := by
  have hcardKey : cardKey card = some card_id := by
    rw [cardKey, if_pos hk, hid]
  have hpageKey : pageKey card = none := by
    rw [pageKey, if_neg (by simp [hk])]
  intro rows
  induction rows with
  | nil =>
    intro _
    exact List.pairwise_cons.mpr ⟨fun x hx => absurd hx (List.not_mem_nil x),
      List.Pairwise.nil⟩
  | cons r rs ih =>
    intro hinv
    obtain ⟨hr, hrs⟩ := List.pairwise_cons.mp hinv
    by_cases hm : is_card_row card_id r = true
    · simp only [upsert_card, if_pos hm]
      refine List.pairwise_cons.mpr ⟨?_, hrs⟩
      intro x hx
      have hrkey : cardKey r = some card_id := cardKey_eq_some_iff.mpr hm
      refine ⟨Or.inr ?_, Or.inl hpageKey⟩
      rw [hcardKey]
      rcases (hr x hx).1 with h | h
      · rw [hrkey] at h
        exact absurd h (Option.some_ne_none _)
      · rw [hrkey] at h
        exact h
    · simp only [upsert_card, if_neg hm]
      refine List.pairwise_cons.mpr ⟨?_, ih hrs⟩
      intro x hx
      rcases mem_upsert_card hx with rfl | hx'
      · constructor
        · by_cases hc : cardKey r = none
          · exact Or.inl hc
          · refine Or.inr ?_
            intro heq
            rw [hcardKey] at heq
            exact hm (cardKey_eq_some_iff.mp heq)
        · by_cases hp : pageKey r = none
          · exact Or.inl hp
          · refine Or.inr ?_
            rw [hpageKey]
            exact hp
      · exact hr x hx'

theorem uniqueInv_upsert_page {slug : String} {page : Record}
    (hk : page.kind = some "page") (hs : page.slug = some slug) :
    ∀ {rows : List Record}, uniqueInv rows → uniqueInv (upsert_page slug page rows) := by
  have hpageKey : pageKey page = some slug := by
    rw [pageKey, if_pos hk, hs]
  have hcardKey : cardKey page = none := by
    rw [cardKey, if_neg (by simp [hk])]
  intro rows
  induction rows with
  | nil =>
    intro _
    exact List.pairwise_cons.mpr ⟨fun x hx => absurd hx (List.not_mem_nil x),
      List.Pairwise.nil⟩
  | cons r rs ih =>
    intro hinv
    obtain ⟨hr, hrs⟩ := List.pairwise_cons.mp hinv
    by_cases hm : is_page_row slug r = true
    · simp only [upsert_page, if_pos hm]
      refine List.pairwise_cons.mpr ⟨?_, hrs⟩
      intro x hx
      have hrkey : pageKey r = some slug := pageKey_eq_some_iff.mpr hm
      refine ⟨Or.inl hcardKey, Or.inr ?_⟩
      rw [hpageKey]
      rcases (hr x hx).2 with h | h
      · rw [hrkey] at h
        exact absurd h (Option.some_ne_none _)
      · rw [hrkey] at h
        exact h
    · simp only [upsert_page, if_neg hm]
      refine List.pairwise_cons.mpr ⟨?_, ih hrs⟩
      intro x hx
      rcases mem_upsert_page hx with rfl | hx'
      · constructor
        · by_cases hc : cardKey r = none
          · exact Or.inl hc
          · refine Or.inr ?_
            rw [hcardKey]
            exact hc
        · by_cases hp : pageKey r = none
          · exact Or.inl hp
          · refine Or.inr ?_
            intro heq
            rw [hpageKey] at heq
            exact hm (pageKey_eq_some_iff.mp heq)
      · exact hr x hx'

theorem uniqueInv_delete_card (card_id : String) (rows : List Record)
    (dirs : List String) (hinv : uniqueInv rows) :
    uniqueInv (delete_card card_id true rows dirs).2.1 := by
  unfold delete_card
  by_cases hlen : (rows.filter (fun r => !(is_card_row card_id r))).length = rows.length
  · rw [if_pos hlen]
    exact hinv
  · rw [if_neg hlen]
    exact List.Pairwise.filter _ hinv

/-- C8 counterexample: the claim quantifies over an arbitrary upserted
record, but `upsert_card(id, record)` replaces the first row matching
`id` with `record` *as given*: replacing the card with id `"aaaaaaaa"` by
a record whose own id is `"bbbbbbbb"` leaves the store with two card rows
of id `"bbbbbbbb"`, breaking the at-most-one-card-per-id invariant. -/
theorem C8_counterexample :
    uniqueInv [{ kind := some "card", id := some "aaaaaaaa" },
               { kind := some "card", id := some "bbbbbbbb" }] ∧
    ¬ uniqueInv (upsert_card "aaaaaaaa"
        { kind := some "card", id := some "bbbbbbbb" }
        [{ kind := some "card", id := some "aaaaaaaa" },
         { kind := some "card", id := some "bbbbbbbb" }]) ∧
    ¬ ((upsert_card "aaaaaaaa" { kind := some "card", id := some "bbbbbbbb" }
        [{ kind := some "card", id := some "aaaaaaaa" },
         { kind := some "card", id := some "bbbbbbbb" }]).filter
          (is_card_row "bbbbbbbb")).length ≤ 1 := by
  refine ⟨by decide, by decide, by decide⟩

/-- C8 (amended): the uniqueness invariant (at most one page row per slug
and at most one card row per id) is preserved by `upsert_card`,
`upsert_page` and `delete_card`, *provided the upserted record's `kind`
and key field match the operation's key* (`card.kind="card"`,
`card.id=id`; `page.kind="page"`, `page.slug=slug`), as holds at every
call site in the application. -/
theorem C8_invariant_preserved (rows : List Record) (card page : Record)
    (card_id slug : String) (dirs : List String)
    (hinv : uniqueInv rows)
    (hck : card.kind = some "card") (hcid : card.id = some card_id)
    (hpk : page.kind = some "page") (hps : page.slug = some slug) :
    (uniqueInv (upsert_card card_id card rows) ∧
      storeUnique (upsert_card card_id card rows)) ∧
    (uniqueInv (upsert_page slug page rows) ∧
      storeUnique (upsert_page slug page rows)) ∧
    (uniqueInv (delete_card card_id true rows dirs).2.1 ∧
      storeUnique (delete_card card_id true rows dirs).2.1) := by
  have h1 := uniqueInv_upsert_card hck hcid hinv
  have h2 := uniqueInv_upsert_page hpk hps hinv
  have h3 := uniqueInv_delete_card card_id rows dirs hinv
  exact ⟨⟨h1, (uniqueInv_iff_storeUnique _).mp h1⟩,
         ⟨h2, (uniqueInv_iff_storeUnique _).mp h2⟩,
         ⟨h3, (uniqueInv_iff_storeUnique _).mp h3⟩⟩

/-- Witness for `C8_invariant_preserved` on a concrete two-row store. -/
theorem C8_witness :
    (uniqueInv (upsert_card "aaaaaaaa"
        { kind := some "card", id := some "aaaaaaaa", title := some "new" }
        [{ kind := some "card", id := some "aaaaaaaa" },
         { kind := some "page", slug := some "telegram" }]) ∧
      storeUnique (upsert_card "aaaaaaaa"
        { kind := some "card", id := some "aaaaaaaa", title := some "new" }
        [{ kind := some "card", id := some "aaaaaaaa" },
         { kind := some "page", slug := some "telegram" }])) ∧
    (uniqueInv (upsert_page "telegram"
        { kind := some "page", slug := some "telegram", title := some "new" }
        [{ kind := some "card", id := some "aaaaaaaa" },
         { kind := some "page", slug := some "telegram" }]) ∧
      storeUnique (upsert_page "telegram"
        { kind := some "page", slug := some "telegram", title := some "new" }
        [{ kind := some "card", id := some "aaaaaaaa" },
         { kind := some "page", slug := some "telegram" }])) ∧
    (uniqueInv (delete_card "aaaaaaaa" true
        [{ kind := some "card", id := some "aaaaaaaa" },
         { kind := some "page", slug := some "telegram" }] ["aaaaaaaa"]).2.1 ∧
      storeUnique (delete_card "aaaaaaaa" true
        [{ kind := some "card", id := some "aaaaaaaa" },
         { kind := some "page", slug := some "telegram" }] ["aaaaaaaa"]).2.1) :=
  C8_invariant_preserved
    [{ kind := some "card", id := some "aaaaaaaa" },
     { kind := some "page", slug := some "telegram" }]
    { kind := some "card", id := some "aaaaaaaa", title := some "new" }
    { kind := some "page", slug := some "telegram", title := some "new" }
    "aaaaaaaa" "telegram" ["aaaaaaaa"] (by decide) rfl rfl rfl rfl

/-! ### C4: collision-free unique filenames

`unique_filename` builds candidates `base_2(.ext)`, `base_3(.ext)`, …
(Python renders `i` in decimal, Lean's `Nat.repr`).  Its loop terminates
with a fresh name because decimal numerals are injective — so the
candidates are pairwise distinct and a finite folder cannot contain them
all.  We first establish injectivity and nonemptiness of `Nat.repr`. -/

/-- Reference form of the decimal digit string of `n` (most significant
digit first). -/
def decDigits (n : Nat) : List Char :=
  if _h : n < 10 then [Nat.digitChar n]
  else decDigits (n / 10) ++ [Nat.digitChar (n % 10)]
termination_by n
decreasing_by exact Nat.div_lt_self (by omega) (by omega)

theorem toDigitsCore_append (b : Nat) :
    ∀ (fuel n : Nat) (ds : List Char),
      Nat.toDigitsCore b fuel n ds = Nat.toDigitsCore b fuel n [] ++ ds := by
  intro fuel
  induction fuel with
  | zero => intro n ds; rfl
  | succ fuel ih =>
    intro n ds
    simp only [Nat.toDigitsCore]
    by_cases h : n / b = 0
    · simp [h]
    · rw [if_neg h, if_neg h, ih (n / b) (Nat.digitChar (n % b) :: ds),
          ih (n / b) [Nat.digitChar (n % b)], List.append_assoc, List.singleton_append]

theorem toDigitsCore_eq_decDigits :
    ∀ fuel n : Nat, n < fuel → Nat.toDigitsCore 10 fuel n [] = decDigits n := by
  intro fuel
  induction fuel with
  | zero =>
    intro n h
    omega
  | succ fuel ih =>
    intro n h
    simp only [Nat.toDigitsCore]
    by_cases h10 : n < 10
    · rw [if_pos (by omega), decDigits, dif_pos h10, Nat.mod_eq_of_lt h10]
    · rw [if_neg (by omega),
          toDigitsCore_append 10 fuel (n / 10) [Nat.digitChar (n % 10)],
          ih (n / 10) (by omega)]
      conv_rhs => rw [decDigits]
      rw [dif_neg h10]

theorem repr_eq_decDigits (n : Nat) : Nat.repr n = ⟨decDigits n⟩ := by
  show (Nat.toDigits 10 n).asString = _
  rw [Nat.toDigits, toDigitsCore_eq_decDigits (n + 1) n (Nat.lt_succ_self n)]
  rfl

/-- Left inverse of `decDigits`: read a decimal digit string back. -/
def ofDecDigits (l : List Char) : Nat :=
  l.foldl (fun acc c => acc * 10 + (c.toNat - 48)) 0

theorem ofDecDigits_decDigits (n : Nat) : ofDecDigits (decDigits n) = n := by
  induction n using Nat.strong_induction_on with
  | _ n ih =>
    have hdig : ∀ m < 10, (Nat.digitChar m).toNat - 48 = m := by decide
    by_cases h : n < 10
    · rw [decDigits, dif_pos h]
      show 0 * 10 + ((Nat.digitChar n).toNat - 48) = n
      rw [hdig n h]
      omega
    · rw [decDigits, dif_neg h, ofDecDigits, List.foldl_append]
      show (ofDecDigits (decDigits (n / 10))) * 10 + ((Nat.digitChar (n % 10)).toNat - 48) = n
      rw [ih (n / 10) (Nat.div_lt_self (by omega) (by omega)),
          hdig (n % 10) (Nat.mod_lt _ (by omega))]
      omega

theorem decDigits_ne_nil (n : Nat) : decDigits n ≠ [] := by
  by_cases h : n < 10
  · rw [decDigits, dif_pos h]
    simp
  · rw [decDigits, dif_neg h]
    simp

theorem repr_injective : Function.Injective Nat.repr := by
  intro m n h
  rw [repr_eq_decDigits, repr_eq_decDigits] at h
  have hd : decDigits m = decDigits n := congrArg String.data h
  calc m = ofDecDigits (decDigits m) := (ofDecDigits_decDigits m).symm
    _ = ofDecDigits (decDigits n) := by rw [hd]
    _ = n := ofDecDigits_decDigits n

theorem repr_length_pos (n : Nat) : 1 ≤ (Nat.repr n).length := by
  rw [repr_eq_decDigits]
  show 1 ≤ (decDigits n).length
  cases hl : decDigits n with
  | nil => exact absurd hl (decDigits_ne_nil n)
  | cons c t => simp

/-- Python `filename.rpartition(".")` followed by the `if not dot` fixup
(`app.py` lines 69–71): the `(base, ext)` pair used to build candidates.
When a dot is present, `base`/`ext` are the parts before/after the *last*
dot; otherwise `base = filename`, `ext = ""`. -/
def splitBaseExt (filename : String) : String × String :=
  if filename.data.contains '.' then
    (⟨((filename.data.reverse.dropWhile (fun c => c ≠ '.')).drop 1).reverse⟩,
     ⟨(filename.data.reverse.takeWhile (fun c => c ≠ '.')).reverse⟩)
  else (filename, "")

/-- The `i`-th collision candidate (`app.py` line 75):
`f"{base}_{i}.{ext}" if ext else f"{base}_{i}"` (note the guard tests
`ext`, not the presence of a dot, so a trailing-dot name drops its dot). -/
def candidate (base ext : String) (i : Nat) : String :=
  if ext = "" then base ++ "_" ++ Nat.repr i
  else base ++ "_" ++ Nat.repr i ++ "." ++ ext

/-- The `while` loop of `unique_filename`, with explicit fuel
(`folder.length + 1` iterations always suffice to reach a fresh name:
see `C4_unique_filename`).  `i` and `cand` are the Python loop variables. -/
def uniqueLoop (folder : List String) (base ext : String) :
    Nat → Nat → String → String
  | 0, _, cand => cand
  | fuel + 1, i, cand =>
    if cand ∈ folder then
      uniqueLoop folder base ext fuel (i + 1) (candidate base ext i)
    else cand

/-- `app.py` lines 68–77, `unique_filename`: `filename` when free in
`folder`, else the first free candidate among `base_2(.ext)`,
`base_3(.ext)`, …  The folder contents stand for `os.path.exists` on the
joined path. -/
def unique_filename (folder : List String) (filename : String) : String :=
  let p := splitBaseExt filename
  uniqueLoop folder p.1 p.2 (folder.length + 1) 2 filename

/-- The sequence of names the loop tests, starting from loop state
`(i, cand)`: `cand`, then `candidate i`, `candidate (i+1)`, … -/
def candSeq (base ext : String) (i : Nat) (cand : String) : Nat → String
  | 0 => cand
  | k + 1 => candidate base ext (i + k)

theorem splitBaseExt_spec (filename : String) :
    (filename.data.contains '.' = true ∧
      filename.length = (splitBaseExt filename).1.length + 1 +
        (splitBaseExt filename).2.length) ∨
    (filename.data.contains '.' = false ∧
      (splitBaseExt filename).1 = filename ∧ (splitBaseExt filename).2 = "") := by
  by_cases hc : filename.data.contains '.' = true
  · left
    refine ⟨hc, ?_⟩
    rw [splitBaseExt, if_pos hc]
    have hsplit := List.takeWhile_append_dropWhile (fun c => c ≠ '.')
      filename.data.reverse
    have hlen := congrArg List.length hsplit
    rw [List.length_append, List.length_reverse] at hlen
    have hdnil : filename.data.reverse.dropWhile (fun c => c ≠ '.') ≠ [] := by
      intro hnil
      have hmem : '.' ∈ filename.data.reverse :=
        List.mem_reverse.mpr (List.elem_iff.mp hc)
      have := List.dropWhile_eq_nil_iff.mp hnil '.' hmem
      simp at this
    have hdlen : 1 ≤ (filename.data.reverse.dropWhile (fun c => c ≠ '.')).length :=
      List.length_pos.mpr hdnil
    show filename.data.length = _ + 1 + _
    have h1 : (String.mk (((filename.data.reverse.dropWhile
        (fun c => c ≠ '.')).drop 1).reverse)).length =
        (filename.data.reverse.dropWhile (fun c => c ≠ '.')).length - 1 := by
      show (((filename.data.reverse.dropWhile (fun c => c ≠ '.')).drop 1).reverse).length = _
      rw [List.length_reverse, List.length_drop]
    have h2 : (String.mk ((filename.data.reverse.takeWhile
        (fun c => c ≠ '.')).reverse)).length =
        (filename.data.reverse.takeWhile (fun c => c ≠ '.')).length := by
      show ((filename.data.reverse.takeWhile (fun c => c ≠ '.')).reverse).length = _
      rw [List.length_reverse]
    rw [h1, h2]
    omega
  · right
    refine ⟨by simpa using hc, ?_, ?_⟩ <;> rw [splitBaseExt, if_neg hc]

theorem length_lt_candidate (filename : String) (j : Nat) :
    filename.length <
      (candidate (splitBaseExt filename).1 (splitBaseExt filename).2 j).length := by
  have hr := repr_length_pos j
  have hu : ("_" : String).length = 1 := rfl
  have hd : ("." : String).length = 1 := rfl
  rcases splitBaseExt_spec filename with ⟨_, hlen⟩ | ⟨_, hbase, hext⟩
  · by_cases he : (splitBaseExt filename).2 = ""
    · rw [candidate, if_pos he]
      rw [String.length_append, String.length_append, hu]
      have : (splitBaseExt filename).2.length = 0 := by rw [he]; rfl
      omega
    · rw [candidate, if_neg he]
      rw [String.length_append, String.length_append, String.length_append,
        String.length_append, hu, hd]
      omega
  · rw [candidate, if_pos hext, hbase]
    rw [String.length_append, String.length_append, hu]
    omega

theorem string_append_left_cancel {s t u : String} (h : s ++ t = s ++ u) : t = u := by
  apply String.ext
  have hd : s.data ++ t.data = s.data ++ u.data := by
    simpa using congrArg String.data h
  exact List.append_inj_right hd rfl

theorem string_append_right_cancel {s t u : String} (h : s ++ u = t ++ u) : s = t := by
  apply String.ext
  have hd : s.data ++ u.data = t.data ++ u.data := by
    simpa using congrArg String.data h
  exact (List.append_inj' hd rfl).1

theorem candidate_injective (base ext : String) :
    Function.Injective (candidate base ext) := by
  intro j j' h
  apply repr_injective
  by_cases he : ext = ""
  · rw [candidate, candidate, if_pos he, if_pos he] at h
    exact string_append_left_cancel h
  · rw [candidate, candidate, if_neg he, if_neg he] at h
    exact string_append_left_cancel
      (string_append_right_cancel (string_append_right_cancel h))

theorem candSeq_injective (filename : String) :
    Function.Injective
      (candSeq (splitBaseExt filename).1 (splitBaseExt filename).2 2 filename) := by
  intro k k' h
  cases k with
  | zero =>
    cases k' with
    | zero => rfl
    | succ k' =>
      exfalso
      have hlt := length_lt_candidate filename (2 + k')
      rw [show candSeq (splitBaseExt filename).1 (splitBaseExt filename).2 2 filename 0
            = filename from rfl,
          show candSeq (splitBaseExt filename).1 (splitBaseExt filename).2 2 filename
            (k' + 1) = candidate (splitBaseExt filename).1 (splitBaseExt filename).2
            (2 + k') from rfl] at h
      have hlc := congrArg String.length h
      omega
  | succ k =>
    cases k' with
    | zero =>
      exfalso
      have hlt := length_lt_candidate filename (2 + k)
      rw [show candSeq (splitBaseExt filename).1 (splitBaseExt filename).2 2 filename
            (k + 1) = candidate (splitBaseExt filename).1 (splitBaseExt filename).2
            (2 + k) from rfl,
          show candSeq (splitBaseExt filename).1 (splitBaseExt filename).2 2 filename 0
            = filename from rfl] at h
      have hlc := congrArg String.length h
      omega
    | succ k' =>
      have := candidate_injective (splitBaseExt filename).1 (splitBaseExt filename).2 h
      omega

theorem exists_fresh (folder : List String) (filename : String) :
    ∃ k, k < folder.length + 1 ∧
      candSeq (splitBaseExt filename).1 (splitBaseExt filename).2 2 filename k
        ∉ folder := by
  by_contra hcon
  push_neg at hcon
  have hinj : Set.InjOn
      (candSeq (splitBaseExt filename).1 (splitBaseExt filename).2 2 filename)
      ↑(Finset.range (folder.length + 1)) :=
    (candSeq_injective filename).injOn
  have hsub : (Finset.range (folder.length + 1)).image
      (candSeq (splitBaseExt filename).1 (splitBaseExt filename).2 2 filename) ⊆
      folder.toFinset := by
    intro x hx
    obtain ⟨k, hk, rfl⟩ := Finset.mem_image.mp hx
    exact List.mem_toFinset.mpr (hcon k (Finset.mem_range.mp hk))
  have h1 : ((Finset.range (folder.length + 1)).image
      (candSeq (splitBaseExt filename).1 (splitBaseExt filename).2 2 filename)).card =
      folder.length + 1 := by
    rw [Finset.card_image_of_injOn hinj, Finset.card_range]
  have h2 := Finset.card_le_card hsub
  have h3 := List.toFinset_card_le folder
  omega

theorem uniqueLoop_spec (folder : List String) (base ext : String) :
    ∀ (fuel i : Nat) (cand : String),
      (∃ k, k < fuel ∧ candSeq base ext i cand k ∉ folder) →
      ∃ k, k < fuel ∧
        uniqueLoop folder base ext fuel i cand = candSeq base ext i cand k ∧
        candSeq base ext i cand k ∉ folder ∧
        ∀ m, m < k → candSeq base ext i cand m ∈ folder := by
  intro fuel
  induction fuel with
  | zero =>
    intro i cand ⟨k, hk, _⟩
    omega
  | succ fuel ih =>
    intro i cand ⟨k, hk, hfree⟩
    by_cases hc : cand ∈ folder
    · have hshift : ∀ m, candSeq base ext (i + 1) (candidate base ext i) m
          = candSeq base ext i cand (m + 1) := by
        intro m
        cases m with
        | zero =>
          show candidate base ext i = candidate base ext (i + 0)
          rw [Nat.add_zero]
        | succ m =>
          show candidate base ext (i + 1 + m) = candidate base ext (i + (m + 1))
          congr 1
          omega
      have hk' : ∃ k', k' < fuel ∧
          candSeq base ext (i + 1) (candidate base ext i) k' ∉ folder := by
        cases k with
        | zero => exact absurd hc hfree
        | succ k =>
          refine ⟨k, by omega, ?_⟩
          rw [hshift k]
          exact hfree
      obtain ⟨k₀, hk₀, heq, hfree₀, hmin₀⟩ := ih (i + 1) (candidate base ext i) hk'
      refine ⟨k₀ + 1, by omega, ?_, ?_, ?_⟩
      · show uniqueLoop folder base ext (fuel + 1) i cand = _
        simp only [uniqueLoop]
        rw [if_pos hc, heq, hshift]
      · rw [← hshift k₀]
        exact hfree₀
      · intro m hm
        cases m with
        | zero => exact hc
        | succ m =>
          rw [← hshift m]
          exact hmin₀ m (by omega)
    · refine ⟨0, by omega, ?_, hc, by omega⟩
      show uniqueLoop folder base ext (fuel + 1) i cand = cand
      simp only [uniqueLoop]
      rw [if_neg hc]

/-- C4 counterexample (the trailing-dot corner of the claim's candidate
description): the candidate guard tests the *extension*, not the
presence of a separator, so for `"a."` (empty extension after the last
dot) with `"a."` already present, `unique_filename` returns `"a_2"` —
the dot vanishes; the suffix is neither inserted before the last
extension separator (which would give `"a_2."`) nor appended to the
whole name (`"a._2"`). -/
theorem C4_counterexample :
    unique_filename ["a."] "a." = "a_2" ∧
    ("a_2" : String) ≠ "a_2." ∧ ("a_2" : String) ≠ "a._2" := by
  refine ⟨by decide, by decide, by decide⟩

/-- C4 (amended): `unique_filename` never returns a name present in the
folder; it returns `filename` itself when that is free; otherwise it
returns `candidate k` — `base_k.ext` when the extension is non-empty,
`base_k` when the name has no extension *or an empty one (trailing dot)*
— for the least `k ≥ 2` whose candidate is free. -/
theorem C4_unique_filename (folder : List String) (filename : String) :
    unique_filename folder filename ∉ folder ∧
    (filename ∉ folder → unique_filename folder filename = filename) ∧
    (filename ∈ folder →
      ∃ k, 2 ≤ k ∧
        unique_filename folder filename =
          candidate (splitBaseExt filename).1 (splitBaseExt filename).2 k ∧
        candidate (splitBaseExt filename).1 (splitBaseExt filename).2 k ∉ folder ∧
        ∀ j, 2 ≤ j → j < k →
          candidate (splitBaseExt filename).1 (splitBaseExt filename).2 j ∈ folder) := by
  obtain ⟨k, hk, heq, hfree, hmin⟩ :=
    uniqueLoop_spec folder (splitBaseExt filename).1 (splitBaseExt filename).2
      (folder.length + 1) 2 filename (exists_fresh folder filename)
  have hiseq : unique_filename folder filename =
      candSeq (splitBaseExt filename).1 (splitBaseExt filename).2 2 filename k := heq
  refine ⟨?_, ?_, ?_⟩
  · rw [hiseq]
    exact hfree
  · intro hnot
    cases k with
    | zero => exact hiseq
    | succ k =>
      exact absurd (hmin 0 (by omega)) hnot
  · intro hmem
    cases k with
    | zero => exact absurd hmem hfree
    | succ k =>
      refine ⟨k + 2, by omega, ?_, ?_, ?_⟩
      · rw [hiseq]
        show candSeq (splitBaseExt filename).1 (splitBaseExt filename).2 2 filename
            (k + 1) = candidate (splitBaseExt filename).1 (splitBaseExt filename).2
            (k + 2)
        show candidate (splitBaseExt filename).1 (splitBaseExt filename).2 (2 + k) = _
        congr 1
        omega
      · have : candSeq (splitBaseExt filename).1 (splitBaseExt filename).2 2 filename
            (k + 1) = candidate (splitBaseExt filename).1 (splitBaseExt filename).2
            (k + 2) := by
          show candidate (splitBaseExt filename).1 (splitBaseExt filename).2 (2 + k) = _
          congr 1
          omega
        rw [← this]
        exact hfree
      · intro j hj2 hjk
        obtain ⟨m, rfl⟩ : ∃ m, j = m + 2 := ⟨j - 2, by omega⟩
        have hseq : candidate (splitBaseExt filename).1 (splitBaseExt filename).2
            (m + 2) = candSeq (splitBaseExt filename).1 (splitBaseExt filename).2 2
              filename (m + 1) := by
          show _ = candidate (splitBaseExt filename).1 (splitBaseExt filename).2 (2 + m)
          congr 1
          omega
        rw [hseq]
        exact hmin (m + 1) (by omega)

/-- Witness for `C4_unique_filename` and the claim's concrete examples:
`a.png` present gives `a_2.png`; both present give `a_3.png`; a free name
is returned unchanged; results are fresh. -/
theorem C4_witness :
    unique_filename ["a.png"] "a.png" ∉ ["a.png"] ∧
    unique_filename ["b.png"] "a.png" = "a.png" ∧
    unique_filename ["a.png"] "a.png" = "a_2.png" ∧
    unique_filename ["a.png", "a_2.png"] "a.png" = "a_3.png" :=
  ⟨(C4_unique_filename ["a.png"] "a.png").1,
   (C4_unique_filename ["b.png"] "a.png").2.1 (by decide),
   by decide, by decide⟩

/-! ### C3: loading the store file

`load_all` parses each line with `json.loads`.  The parser below is
modelled from the Python standard library: the JSON grammar accepted by
`json.loads` (strict mode plus the `NaN`/`Infinity` extensions it enables
by default).  Number tokens keep their literal text (their numeric value
plays no role in the store). -/

/-- A JSON value, the result of `json.loads` on one store line. -/
inductive JVal where
  | null
  | bool (b : Bool)
  | num (lit : String)
  | str (s : String)
  | arr (xs : List JVal)
  | obj (kvs : List (String × JVal))

/-- JSON whitespace. -/
def jsonWs (c : Char) : Bool :=
  c == ' ' || c == '\t' || c == '\n' || c == '\r'

def skipWs (cs : List Char) : List Char := cs.dropWhile jsonWs

def parseHexDigit (c : Char) : Option Nat :=
  if '0' ≤ c ∧ c ≤ '9' then some (c.toNat - 48)
  else if 'a' ≤ c ∧ c ≤ 'f' then some (c.toNat - 87)
  else if 'A' ≤ c ∧ c ≤ 'F' then some (c.toNat - 55)
  else none

def escChar (e : Char) : Option Char :=
  if e = '"' then some '"'
  else if e = '\\' then some '\\'
  else if e = '/' then some '/'
  else if e = 'b' then some '\x08'
  else if e = 'f' then some '\x0c'
  else if e = 'n' then some '\n'
  else if e = 'r' then some '\r'
  else if e = 't' then some '\t'
  else none

/-- The body of a JSON string, after the opening quote: returns the
decoded characters and the input after the closing quote. -/
def parseStringBody : Nat → List Char → Option (List Char × List Char)
  | 0, _ => none
  | _ + 1, [] => none
  | fuel + 1, c :: cs =>
    if c = '"' then some ([], cs)
    else if c = '\\' then
      match cs with
      | [] => none
      | e :: cs' =>
        if e = 'u' then
          match cs' with
          | h1 :: h2 :: h3 :: h4 :: rest =>
            match parseHexDigit h1, parseHexDigit h2,
                  parseHexDigit h3, parseHexDigit h4 with
            | some a, some b, some c2, some d =>
              match parseStringBody fuel rest with
              | some (s, rest') =>
                some (Char.ofNat (((a * 16 + b) * 16 + c2) * 16 + d) :: s, rest')
              | none => none
            | _, _, _, _ => none
          | _ => none
        else
          match escChar e with
          | some ec =>
            match parseStringBody fuel cs' with
            | some (s, rest') => some (ec :: s, rest')
            | none => none
          | none => none
    else if c.toNat < 32 then none
    else
      match parseStringBody fuel cs with
      | some (s, rest') => some (c :: s, rest')
      | none => none

def isDigit (c : Char) : Bool := '0' ≤ c && c ≤ '9'

/-- `int` part of a JSON number: `0` or a nonzero digit followed by
digits (no leading zeros). -/
def parseIntPart : List Char → Option (List Char × List Char)
  | [] => none
  | c :: cs =>
    if c = '0' then some ([c], cs)
    else if isDigit c then some (c :: cs.takeWhile isDigit, cs.dropWhile isDigit)
    else none

/-- Optional `.digits` part. -/
def parseFracPart : List Char → Option (List Char × List Char)
  | '.' :: cs =>
    if cs.takeWhile isDigit = [] then none
    else some ('.' :: cs.takeWhile isDigit, cs.dropWhile isDigit)
  | cs => some ([], cs)

/-- Optional exponent part. -/
def parseExpPart : List Char → Option (List Char × List Char)
  | [] => some ([], [])
  | c :: cs =>
    if c = 'e' ∨ c = 'E' then
      match cs with
      | [] => none
      | s :: cs' =>
        if s = '+' ∨ s = '-' then
          if cs'.takeWhile isDigit = [] then none
          else some (c :: s :: cs'.takeWhile isDigit, cs'.dropWhile isDigit)
        else if cs.takeWhile isDigit = [] then none
        else some (c :: cs.takeWhile isDigit, cs.dropWhile isDigit)
    else some ([], c :: cs)

def parseNumber (cs : List Char) : Option (List Char × List Char) :=
  let p : List Char × List Char :=
    match cs with
    | '-' :: t => (['-'], t)
    | _ => ([], cs)
  match parseIntPart p.2 with
  | none => none
  | some (ip, cs₂) =>
    match parseFracPart cs₂ with
    | none => none
    | some (fp, cs₃) =>
      match parseExpPart cs₃ with
      | none => none
      | some (ep, cs₄) => some (p.1 ++ ip ++ fp ++ ep, cs₄)

mutual

/-- One JSON value, starting at the given (non-blank) position. -/
def parseVal : Nat → List Char → Option (JVal × List Char)
  | 0, _ => none
  | _ + 1, [] => none
  | fuel + 1, c :: cs =>
    if c = '\x7b' then
      match skipWs cs with
      | '\x7d' :: rest => some (JVal.obj [], rest)
      | rest => parseMembers fuel rest []
    else if c = '[' then
      match skipWs cs with
      | ']' :: rest => some (JVal.arr [], rest)
      | rest => parseItems fuel rest []
    else if c = '"' then
      match parseStringBody (cs.length + 1) cs with
      | some (s, rest) => some (JVal.str ⟨s⟩, rest)
      | none => none
    else
      match c :: cs with
      | 't' :: 'r' :: 'u' :: 'e' :: rest => some (JVal.bool true, rest)
      | 'f' :: 'a' :: 'l' :: 's' :: 'e' :: rest => some (JVal.bool false, rest)
      | 'n' :: 'u' :: 'l' :: 'l' :: rest => some (JVal.null, rest)
      | 'N' :: 'a' :: 'N' :: rest => some (JVal.num "NaN", rest)
      | 'I' :: 'n' :: 'f' :: 'i' :: 'n' :: 'i' :: 't' :: 'y' :: rest =>
        some (JVal.num "Infinity", rest)
      | '-' :: 'I' :: 'n' :: 'f' :: 'i' :: 'n' :: 'i' :: 't' :: 'y' :: rest =>
        some (JVal.num "-Infinity", rest)
      | _ =>
        match parseNumber (c :: cs) with
        | some (tok, rest) => some (JVal.num ⟨tok⟩, rest)
        | none => none

/-- Object members, positioned at a key (after `{` + whitespace or after
a comma + whitespace). -/
def parseMembers : Nat → List Char → List (String × JVal) →
    Option (JVal × List Char)
  | 0, _, _ => none
  | fuel + 1, cs, acc =>
    match cs with
    | '"' :: cs' =>
      match parseStringBody (cs'.length + 1) cs' with
      | some (k, cs₂) =>
        match skipWs cs₂ with
        | ':' :: cs₃ =>
          match parseVal fuel (skipWs cs₃) with
          | some (v, cs₄) =>
            match skipWs cs₄ with
            | ',' :: cs₅ => parseMembers fuel (skipWs cs₅) (acc ++ [(⟨k⟩, v)])
            | '\x7d' :: cs₅ => some (JVal.obj (acc ++ [(⟨k⟩, v)]), cs₅)
            | _ => none
          | none => none
        | _ => none
      | none => none
    | _ => none

/-- Array items, positioned at a value (after `[` + whitespace or after a
comma + whitespace). -/
def parseItems : Nat → List Char → List JVal → Option (JVal × List Char)
  | 0, _, _ => none
  | fuel + 1, cs, acc =>
    match parseVal fuel cs with
    | some (v, cs₂) =>
      match skipWs cs₂ with
      | ',' :: cs₃ => parseItems fuel (skipWs cs₃) (acc ++ [v])
      | ']' :: cs₃ => some (JVal.arr (acc ++ [v]), cs₃)
      | _ => none
    | none => none

end

/-- `json.loads(line)`: one JSON document with only whitespace around it.
The fuel `line.length + 1` always suffices: every recursion step follows
the consumption of at least one input character. -/
def json_loads (line : String) : Option JVal :=
  match parseVal (line.data.length + 1) (skipWs line.data) with
  | some (v, rest) => if skipWs rest = [] then some v else none
  | none => none

/-- `app.py` lines 445–461, `load_all`: `[]` when the store file does not
exist; otherwise the loop `for line in f:` — strip the line, skip it when
blank, `try: rows.append(json.loads(line)) except: continue`.  The store
file is modelled by its list of lines (`none` = file missing); the
scoped `FileLock` acquisition does not change the value read. -/
def load_all (file : Option (List String)) : List JVal :=
  match file with
  | none => []
  | some lines =>
    lines.foldl (fun rows line =>
      let l := pyStrip line
      if l = "" then rows
      else
        match json_loads l with
        | some v => rows ++ [v]
        | none => rows) []

theorem load_all_foldl_eq (lines : List String) :
    ∀ acc : List JVal,
      lines.foldl (fun rows line =>
        let l := pyStrip line
        if l = "" then rows
        else
          match json_loads l with
          | some v => rows ++ [v]
          | none => rows) acc =
      acc ++ lines.filterMap (fun line =>
        let l := pyStrip line
        if l = "" then none else json_loads l) := by
  induction lines with
  | nil =>
    intro acc
    simp
  | cons line rest ih =>
    intro acc
    rw [List.foldl_cons, List.filterMap_cons]
    by_cases hb : pyStrip line = ""
    · simp only [hb, if_pos rfl]
      exact ih acc
    · simp only [if_neg hb]
      cases hj : json_loads (pyStrip line) with
      | none => exact ih acc
      | some v =>
        rw [ih (acc ++ [v]), List.append_assoc, List.singleton_append]

/-- C3: `load_all` returns `[]` when the store file does not exist, and
otherwise exactly the JSON values of the lines that parse, in file
order, silently skipping every blank or malformed line; in particular a
file with one corrupt line and two valid lines loads exactly the two
valid records. -/
theorem C3_load_all (lines : List String) :
    load_all none = [] ∧
    load_all (some lines) = lines.filterMap (fun line =>
      let l := pyStrip line
      if l = "" then none else json_loads l) ∧
    load_all (some ["\x7b\"kind\": \"card\"",
                    "\x7b\"kind\": \"card\", \"id\": \"aaaaaaaa\"\x7d",
                    "\x7b\"kind\": \"page\", \"files\": []\x7d"]) =
      [JVal.obj [("kind", JVal.str "card"), ("id", JVal.str "aaaaaaaa")],
       JVal.obj [("kind", JVal.str "page"), ("files", JVal.arr [])]] :=
  ⟨rfl, load_all_foldl_eq lines [], rfl⟩

end NR
